import Mathlib

/-!
# Verification of `compute_primes` (src/programs/compute_primes.c)

Shallow embedding of the Sieve-of-Eratosthenes routine

```c
void compute_primes(int limit) {
    bool *is_prime = malloc((limit + 1) * sizeof(bool));
    if (is_prime == NULL) { return; }
    for (int i = 2; i <= limit; i++) { is_prime[i] = true; }
    for (int p = 2; p * p <= limit; p++) {
        if (is_prime[p]) {
            for (int i = p * p; i <= limit; i += p) { is_prime[i] = false; }
        }
    }
    free(is_prime);
    printf("End Program\n");
}
```

The marking array is a `List Cell` where `Cell := Option Bool`: `none` models an
indeterminate (uninitialized) `malloc`-ed byte, `some true` a cell the program wrote
`true` into ("candidate"), `some false` a cell written `false` ("eliminated").

Loops are embedded as fuel-indexed structural recursions; every call site passes
`limit + 1` fuel, which exceeds the number of iterations of each of the three
`for` loops (each loop's index strictly increases and stays within `[2, limit+1]`),
so the fuel never runs out and the recursion stops exactly when the C loop
condition fails.  Besides the array contents the embedding records, as ghost
output, the list of indices each loop reads and writes (`LoopOut.reads`,
`LoopOut.writes`), used to state memory-safety and "no index touched" claims.

A second embedding (`compute_primes_chk`) re-traces the same control flow over
`Int` with every arithmetic operation checked against the 32-bit `int` range,
to settle the overflow claim: the C program performs `limit + 1`, `i + 1`,
`p * p`, `i + p`, `p + 1` in `int` arithmetic and has no overflow guard.
-/

namespace ComputePrimes

/-- One cell of the `bool` marking array.  `none` = indeterminate contents
(fresh from `malloc`, never written); `some b` = the program stored `b`. -/
abbrev Cell := Option Bool

/-- Result of `malloc((limit + 1) * sizeof(bool))` on success: `limit + 1` cells of
indeterminate contents. -/
def mallocArray (limit : Nat) : List Cell :=
  List.replicate (limit + 1) none

/-- A counted `for` loop writing value `v` into cells `i, i + step, i + step*2, ...`
while `i <= limit`.  This is the common shape of the two marking loops of the C
code: the initialization loop is `markLoop limit 1 (some true)` started at `2`,
and the inner elimination loop for a live `p` is `markLoop limit p (some false)`
started at `p * p`.  Returns the new array together with the list of indices
written (ghost output; the C loop writes exactly its index sequence).
The `fuel` argument only forces termination; call sites pass more fuel than the
loop has iterations. -/
def markLoop (limit step : Nat) (v : Cell) : Nat → Nat → List Cell → List Cell × List Nat
  | _, 0, a => (a, [])
  | i, fuel + 1, a =>
    if i ≤ limit then
      let r := markLoop limit step v (i + step) fuel (a.set i v)
      (r.1, i :: r.2)
    else (a, [])

/-- The initialization loop `for (int i = 2; i <= limit; i++) is_prime[i] = true;`. -/
def initLoop (limit : Nat) (a : List Cell) : List Cell × List Nat :=
  markLoop limit 1 (some true) 2 (limit + 1) a

/-- The inner elimination loop `for (int i = p * p; i <= limit; i += p) is_prime[i] = false;`. -/
def elimPass (limit p : Nat) (a : List Cell) : List Cell × List Nat :=
  markLoop limit p (some false) (p * p) (limit + 1) a

/-- Result of running the sieve loop nest: final array contents plus the ghost
logs of every index read from and written to the marking array. -/
structure LoopOut where
  marks : List Cell
  reads : List Nat
  writes : List Nat
deriving Repr, DecidableEq

/-- The outer loop `for (int p = 2; p * p <= limit; p++)` with its body guarded by `if (is_prime[p])`.
Each iteration reads `is_prime[p]` (logged in `reads`); when that cell holds
`true` the elimination pass runs (its writes are appended to `writes`); in
either case `p` advances by 1.  Call sites pass `limit + 1` fuel, more than the
loop's iteration count. -/
def sieveLoop (limit : Nat) : Nat → Nat → List Cell → LoopOut
  | 0, _, a => ⟨a, [], []⟩
  | fuel + 1, p, a =>
    if p * p ≤ limit then
      if a.getD p none = some true then
        let e := elimPass limit p a
        let r := sieveLoop limit fuel (p + 1) e.1
        ⟨r.marks, p :: r.reads, e.2 ++ r.writes⟩
      else
        let r := sieveLoop limit fuel (p + 1) a
        ⟨r.marks, p :: r.reads, r.writes⟩
    else ⟨a, [], []⟩

/-- The whole computation on the success path of `malloc`: allocate, initialize,
sieve.  `marks` is the array contents immediately before `free`; `reads`/`writes`
log every array access (the initialization loop's writes first, then the sieve
loop nest's). -/
def compute_primes_run (limit : Nat) : LoopOut :=
  let init := initLoop limit (mallocArray limit)
  let s := sieveLoop limit (limit + 1) 2 init.1
  ⟨s.marks, s.reads, init.2 ++ s.writes⟩

/-- The marking array contents when the elimination pass has terminated. -/
def compute_primes_array (limit : Nat) : List Cell :=
  (compute_primes_run limit).marks

/-- The set (as the sorted list of indices in `[0, limit]`) of numbers the final
marking array reports as prime. -/
def primesOf (limit : Nat) : List Nat :=
  (List.range (limit + 1)).filter (fun i => (compute_primes_array limit).getD i none == some true)

/-- One call of the C function `compute_primes`, including its interaction with
the world: `allocOk` tells whether `malloc` succeeds, `stdout` is the output
stream before the call.  Returns the `void` return value, the output stream
after the call, and the trace of the run (array contents immediately before
`free`, plus the access logs) — the trace is a verification observable, not a
value handed to the caller.  On allocation failure the function returns at once:
nothing is printed, no cell is read or written, there is no array. -/
def compute_primes (limit : Nat) (allocOk : Bool) (stdout : List String) :
    Unit × List String × LoopOut :=
  if allocOk then
    ((), stdout ++ ["End Program"], compute_primes_run limit)
  else
    ((), stdout, ⟨[], [], []⟩)

/-- The value `compute_primes` hands back to its caller: the function has
return type `void`, so the caller receives nothing on every path. -/
def compute_primes_ret (limit : Nat) (allocOk : Bool) : Unit := ()

/-! ## Checked 32-bit `int` semantics

The C function declares `int limit` and computes `limit + 1`, `i + 1`, `p * p`,
`i + p` and `p + 1` in `int` arithmetic, with no guard anywhere against
overflow.  The definitions below re-trace the same control flow over `Int`,
passing every arithmetic result through `chk`, which faithfully reports the
cases where the C program's evaluation leaves the 32-bit signed range
(undefined behavior in C).  Running out of fuel is also an error, so an `ok`
result certifies that the loops ran to normal termination with every
intermediate value representable in `int`. -/

def INT_MAX : Int := 2147483647

def INT_MIN : Int := -2147483648

/-- Evaluate one `int` arithmetic result: `ok` iff it is representable. -/
def chk (r : Int) : Except String Int :=
  if INT_MIN ≤ r ∧ r ≤ INT_MAX then Except.ok r else Except.error "signed integer overflow"

/-- Checked counterpart of `markLoop` (both marking `for` loops): the loop
increment `i + step` is `int` arithmetic, checked by `chk`. -/
def markLoopChk (limit step : Int) (v : Cell) : Int → Nat → List Cell → Except String (List Cell)
  | _, 0, _ => Except.error "out of fuel"
  | i, fuel + 1, a =>
    if i ≤ limit then
      (chk (i + step)).bind (fun i2 => markLoopChk limit step v i2 fuel (a.set i.toNat v))
    else Except.ok a

/-- Checked counterpart of the sieve loop: `p * p` is evaluated for the loop
test and again as the inner loop's initializer, and `p + 1` for the advance,
all in checked `int` arithmetic. -/
def sieveLoopChk (limit : Int) : Int → Nat → List Cell → Except String (List Cell)
  | _, 0, _ => Except.error "out of fuel"
  | p, fuel + 1, a =>
    (chk (p * p)).bind (fun pp =>
      if pp ≤ limit then
        (if a.getD p.toNat none = some true then
          (chk (p * p)).bind
            (fun i0 => markLoopChk limit p (some false) i0 (limit.toNat + 1) a)
        else Except.ok a).bind (fun a2 =>
          (chk (p + 1)).bind (fun p2 => sieveLoopChk limit p2 fuel a2))
      else Except.ok a)

/-- Checked counterpart of the whole success path: the allocation size
expression `limit + 1` first, then the initialization loop, then the sieve. -/
def compute_primes_chk (limit : Int) : Except String (List Cell) :=
  (chk (limit + 1)).bind (fun sz =>
    (markLoopChk limit 1 (some true) 2 (limit.toNat + 1)
        (List.replicate sz.toNat (none : Cell))).bind (fun a2 =>
      sieveLoopChk limit 2 (limit.toNat + 1) a2))

/-! ## Properties of the marking loops

`markLoop limit step v i fuel a` writes `v` into exactly the cells with index
`i + step * k` that lie in `[i, limit]`, leaves every other cell alone, and its
ghost write log is exactly that index sequence — provided the fuel dominates the
iteration count (`limit + 1 ≤ fuel + i` suffices when `1 ≤ step`). -/

lemma markLoop_length (limit step : Nat) (v : Cell) :
    ∀ fuel i a, ((markLoop limit step v i fuel a).1).length = a.length := by
  intro fuel
  induction fuel with
  | zero => intro i a; rfl
  | succ f ih =>
    intro i a
    simp only [markLoop]
    split
    · show ((markLoop limit step v (i + step) f (a.set i v)).1).length = a.length
      rw [ih, List.length_set]
    · rfl

lemma markLoop_getD_not (limit step : Nat) (v : Cell) :
    ∀ fuel i a j, ¬((∃ k, j = i + step * k) ∧ j ≤ limit) →
      ((markLoop limit step v i fuel a).1).getD j none = a.getD j none := by
  intro fuel
  induction fuel with
  | zero => intro i a j _; rfl
  | succ f ih =>
    intro i a j hj
    simp only [markLoop]
    split
    · rename_i hi
      have h1 : ¬((∃ k, j = (i + step) + step * k) ∧ j ≤ limit) := by
        rintro ⟨⟨k, rfl⟩, hle⟩
        exact hj ⟨⟨k + 1, by ring⟩, hle⟩
      have h2 : i ≠ j := by
        rintro rfl
        exact hj ⟨⟨0, by ring⟩, hi⟩
      show ((markLoop limit step v (i + step) f (a.set i v)).1).getD j none = a.getD j none
      rw [ih (i + step) (a.set i v) j h1, List.getD_eq_getElem?_getD,
        List.getD_eq_getElem?_getD, List.getElem?_set_ne h2]
    · rfl

lemma markLoop_getD_mem (limit step : Nat) (v : Cell) (hstep : 1 ≤ step) :
    ∀ fuel i a j, limit + 1 ≤ fuel + i → (∃ k, j = i + step * k) → j ≤ limit →
      j < a.length → ((markLoop limit step v i fuel a).1).getD j none = v := by
  intro fuel
  induction fuel with
  | zero =>
    intro i a j hfuel hk hle _
    obtain ⟨k, rfl⟩ := hk
    exact absurd hle (by simp only [Nat.zero_add] at hfuel; omega)
  | succ f ih =>
    intro i a j hfuel hk hle hlen
    obtain ⟨k, rfl⟩ := hk
    have hi : i ≤ limit := le_trans (Nat.le_add_right i (step * k)) hle
    simp only [markLoop]
    rw [if_pos hi]
    show ((markLoop limit step v (i + step) f (a.set i v)).1).getD (i + step * k) none = v
    match k with
    | 0 =>
      have hnot : ¬((∃ k', i + step * 0 = (i + step) + step * k') ∧ i + step * 0 ≤ limit) := by
        rintro ⟨⟨k', hk'⟩, _⟩
        simp only [Nat.mul_zero, Nat.add_zero] at hk'
        omega
      simp only [Nat.mul_zero, Nat.add_zero] at hnot hlen ⊢
      rw [markLoop_getD_not limit step v f (i + step) (a.set i v) i hnot,
        List.getD_eq_getElem?_getD, List.getElem?_set_self hlen]
      rfl
    | k' + 1 =>
      have hj : i + step * (k' + 1) = (i + step) + step * k' := by ring
      rw [hj]
      exact ih (i + step) (a.set i v) ((i + step) + step * k')
        (by omega) ⟨k', rfl⟩ (hj ▸ hle) (by rw [List.length_set]; exact hj ▸ hlen)

lemma markLoop_writes_sub (limit step : Nat) (v : Cell) :
    ∀ fuel i a j, j ∈ (markLoop limit step v i fuel a).2 →
      (∃ k, j = i + step * k) ∧ j ≤ limit := by
  intro fuel
  induction fuel with
  | zero => intro i a j h; exact absurd h (List.not_mem_nil j)
  | succ f ih =>
    intro i a j hj
    simp only [markLoop] at hj
    by_cases hi : i ≤ limit
    · rw [if_pos hi] at hj
      rcases List.mem_cons.1 hj with rfl | hj
      · exact ⟨⟨0, by ring⟩, hi⟩
      · obtain ⟨⟨k, rfl⟩, hle⟩ := ih (i + step) (a.set i v) _ hj
        exact ⟨⟨k + 1, by ring⟩, hle⟩
    · rw [if_neg hi] at hj
      exact absurd hj (List.not_mem_nil j)

lemma markLoop_mem_writes (limit step : Nat) (v : Cell) (hstep : 1 ≤ step) :
    ∀ fuel i a j, limit + 1 ≤ fuel + i → (∃ k, j = i + step * k) → j ≤ limit →
      j ∈ (markLoop limit step v i fuel a).2 := by
  intro fuel
  induction fuel with
  | zero =>
    intro i a j hfuel hk hle
    obtain ⟨k, rfl⟩ := hk
    exact absurd hle (by simp only [Nat.zero_add] at hfuel; omega)
  | succ f ih =>
    intro i a j hfuel hk hle
    obtain ⟨k, rfl⟩ := hk
    have hi : i ≤ limit := le_trans (Nat.le_add_right i (step * k)) hle
    simp only [markLoop]
    rw [if_pos hi]
    show i + step * k ∈ i :: (markLoop limit step v (i + step) f (a.set i v)).2
    match k with
    | 0 => simp
    | k' + 1 =>
      have hj : i + step * (k' + 1) = (i + step) + step * k' := by ring
      exact List.mem_cons_of_mem i
        (hj ▸ ih (i + step) (a.set i v) _ (by omega) ⟨k', rfl⟩ (hj ▸ hle))

/-! ## The sieve invariant

`Struck p j` says some prime `q` below `p` strikes `j` in its elimination pass
(`q` divides `j` and the pass, starting at `q * q`, reaches `j`).  After the
outer loop has processed all values below `p`, a cell `j` in `[2, limit]` holds
`false` exactly when `Struck p j`, and `true` otherwise; cells `0` and `1` are
still unwritten. -/

def Struck (p j : Nat) : Prop :=
  ∃ q, q < p ∧ Nat.Prime q ∧ q ∣ j ∧ q * q ≤ j

/-- State of the marking array when the outer loop is about to test `p`. -/
def SieveInv (limit p : Nat) (a : List Cell) : Prop :=
  a.length = limit + 1 ∧
  (∀ j, j ≤ limit → 2 ≤ j →
    (Struck p j → a.getD j none = some false) ∧ (¬ Struck p j → a.getD j none = some true)) ∧
  (∀ j, j < 2 → a.getD j none = none)

/-- State of the marking array after the elimination pass terminates. -/
def SieveFinal (limit : Nat) (m : List Cell) : Prop :=
  m.length = limit + 1 ∧
  (∀ j, j ≤ limit → 2 ≤ j →
    (Nat.Prime j → m.getD j none = some true) ∧ (¬ Nat.Prime j → m.getD j none = some false)) ∧
  (∀ j, j < 2 → m.getD j none = none)

lemma self_lt_mul_self {p : Nat} (hp : 2 ≤ p) : p < p * p := by nlinarith

/-- A composite `j ≥ 2` has its least prime factor `q` with `q * q ≤ j`. -/
lemma minFac_mul_self_le {j : Nat} (h2 : 2 ≤ j) (hnp : ¬ Nat.Prime j) :
    j.minFac * j.minFac ≤ j := by
  have := Nat.minFac_sq_le_self (by omega) hnp
  rwa [pow_two] at this

lemma prime_of_not_struck_within {p j : Nat} (h2 : 2 ≤ j) (hsq : j < p * p)
    (h : ¬ Struck p j) : Nat.Prime j := by
  by_contra hnp
  refine h ⟨j.minFac, ?_, Nat.minFac_prime (by omega), Nat.minFac_dvd j,
    minFac_mul_self_le h2 hnp⟩
  by_contra hge
  have h1 : p * p ≤ j.minFac * j.minFac := Nat.mul_self_le_mul_self (not_lt.1 hge)
  exact absurd hsq (not_lt.2 (le_trans h1 (minFac_mul_self_le h2 hnp)))

lemma not_struck_of_prime {p j : Nat} (hj : Nat.Prime j) : ¬ Struck p j := by
  rintro ⟨q, _, hq, hdvd, hqq⟩
  rcases (Nat.prime_dvd_prime_iff_eq hq hj).1 hdvd with rfl
  exact absurd hqq (not_le.2 (self_lt_mul_self hj.two_le))

lemma struck_succ (p j : Nat) :
    Struck (p + 1) j ↔ Struck p j ∨ (Nat.Prime p ∧ p ∣ j ∧ p * p ≤ j) := by
  constructor
  · rintro ⟨q, hq, hprime, hdvd, hqq⟩
    rcases Nat.lt_succ_iff_lt_or_eq.1 hq with h | rfl
    · exact Or.inl ⟨q, h, hprime, hdvd, hqq⟩
    · exact Or.inr ⟨hprime, hdvd, hqq⟩
  · rintro (⟨q, hq, hprime, hdvd, hqq⟩ | ⟨hprime, hdvd, hqq⟩)
    · exact ⟨q, Nat.lt_succ_of_lt hq, hprime, hdvd, hqq⟩
    · exact ⟨p, Nat.lt_succ_self p, hprime, hdvd, hqq⟩

/-- The index set of the elimination pass for `p`: `p*p + p*k` reaches exactly
the multiples of `p` that are at least `p * p`. -/
lemma elim_index_set {p j : Nat} (hp : 0 < p) :
    (∃ k, j = p * p + p * k) ↔ p * p ≤ j ∧ p ∣ j := by
  constructor
  · rintro ⟨k, rfl⟩
    exact ⟨Nat.le_add_right _ _, ⟨p + k, by ring⟩⟩
  · rintro ⟨hpp, m, rfl⟩
    have hm : p ≤ m := Nat.le_of_mul_le_mul_left hpp hp
    exact ⟨m - p, by rw [← Nat.mul_add, Nat.add_sub_cancel' hm]⟩

/-- If the whole range `[2, limit]` lies below `p * p`, the invariant already
describes the final array. -/
lemma sieveInv_exit {limit p : Nat} {a : List Cell} (hlim : limit < p * p)
    (hinv : SieveInv limit p a) : SieveFinal limit a := by
  obtain ⟨hlen, hmid, hlow⟩ := hinv
  refine ⟨hlen, fun j hj h2 => ?_, hlow⟩
  constructor
  · intro hprime
    exact (hmid j hj h2).2 (not_struck_of_prime hprime)
  · intro hnp
    refine (hmid j hj h2).1 ?_
    by_contra hns
    exact hnp (prime_of_not_struck_within h2 (lt_of_le_of_lt hj hlim) hns)

/-- While the invariant holds, the cell the outer loop reads at a live `p`
holds `true` exactly when `p` is prime. -/
lemma sieveInv_read {limit p : Nat} {a : List Cell} (hp : 2 ≤ p) (hpl : p ≤ limit)
    (hinv : SieveInv limit p a) : (a.getD p none = some true ↔ Nat.Prime p) := by
  obtain ⟨_, hmid, _⟩ := hinv
  constructor
  · intro hread
    by_contra hnp
    have hs : Struck p p := by
      by_contra hns
      exact hnp (prime_of_not_struck_within hp (self_lt_mul_self hp) hns)
    rw [(hmid p hpl hp).1 hs] at hread
    exact Bool.noConfusion (Option.some.inj hread)
  · intro hprime
    exact (hmid p hpl hp).2 (not_struck_of_prime hprime)

/-- Running the elimination pass for a prime `p` carries the invariant from `p`
to `p + 1`. -/
lemma sieveInv_elim {limit p : Nat} {a : List Cell} (hp : 2 ≤ p)
    (hprime : Nat.Prime p) (hinv : SieveInv limit p a) :
    SieveInv limit (p + 1) (elimPass limit p a).1 := by
  obtain ⟨hlen, hmid, hlow⟩ := hinv
  have hlen2 : ((elimPass limit p a).1).length = limit + 1 := by
    rw [elimPass, markLoop_length, hlen]
  refine ⟨hlen2, fun j hj h2 => ?_, fun j hj => ?_⟩
  · have hbridge := elim_index_set (p := p) (j := j) (by omega)
    constructor
    · intro hstruck
      by_cases hin : ∃ k, j = p * p + p * k
      · exact markLoop_getD_mem limit p (some false) (by omega) (limit + 1) (p * p) a j
          (by omega) hin hj (by omega)
      · rw [elimPass, markLoop_getD_not limit p (some false) (limit + 1) (p * p) a j
          (fun h => hin h.1)]
        rcases (struck_succ p j).1 hstruck with h | ⟨_, hdvd, hpp⟩
        · exact (hmid j hj h2).1 h
        · exact absurd (hbridge.2 ⟨hpp, hdvd⟩) hin
    · intro hstruck
      have hin : ¬ ∃ k, j = p * p + p * k := by
        intro hin
        obtain ⟨hpp, hdvd⟩ := hbridge.1 hin
        exact hstruck ((struck_succ p j).2 (Or.inr ⟨hprime, hdvd, hpp⟩))
      rw [elimPass, markLoop_getD_not limit p (some false) (limit + 1) (p * p) a j
        (fun h => hin h.1)]
      exact (hmid j hj h2).2 (fun h => hstruck ((struck_succ p j).2 (Or.inl h)))
  · have hin : ¬ ((∃ k, j = p * p + p * k) ∧ j ≤ limit) := by
      rintro ⟨⟨k, rfl⟩, _⟩
      have : 4 ≤ p * p := by nlinarith
      omega
    rw [elimPass, markLoop_getD_not limit p (some false) (limit + 1) (p * p) a j hin]
    exact hlow j hj

/-- Skipping a non-prime `p` carries the invariant from `p` to `p + 1`. -/
lemma sieveInv_skip {limit p : Nat} {a : List Cell} (hnp : ¬ Nat.Prime p)
    (hinv : SieveInv limit p a) : SieveInv limit (p + 1) a := by
  obtain ⟨hlen, hmid, hlow⟩ := hinv
  refine ⟨hlen, fun j hj h2 => ?_, hlow⟩
  have hiff : Struck (p + 1) j ↔ Struck p j := by
    rw [struck_succ]
    exact or_iff_left (fun h => hnp h.1)
  exact ⟨fun h => (hmid j hj h2).1 (hiff.1 h), fun h => (hmid j hj h2).2 (h ∘ hiff.2)⟩

/-- Master lemma: from any invariant state at `p` (with enough fuel left), the
sieve loop drives the array to the final prime/composite characterization. -/
lemma sieveLoop_final (limit : Nat) :
    ∀ fuel p a, 2 ≤ p → limit + 2 ≤ fuel + p → SieveInv limit p a →
      SieveFinal limit (sieveLoop limit fuel p a).marks := by
  intro fuel
  induction fuel with
  | zero =>
    intro p a hp hfuel hinv
    have hpp : limit < p * p := by
      have : p ≤ p * p := by nlinarith
      omega
    exact sieveInv_exit hpp hinv
  | succ f ih =>
    intro p a hp hfuel hinv
    by_cases hpl : p * p ≤ limit
    · have hplim : p ≤ limit := le_trans (by nlinarith) hpl
      simp only [sieveLoop]
      rw [if_pos hpl]
      by_cases hlive : a.getD p none = some true
      · rw [if_pos hlive]
        have hprime : Nat.Prime p := (sieveInv_read hp hplim hinv).1 hlive
        exact ih (p + 1) (elimPass limit p a).1 (by omega) (by omega)
          (sieveInv_elim hp hprime hinv)
      · rw [if_neg hlive]
        have hnp : ¬ Nat.Prime p := fun h => hlive ((sieveInv_read hp hplim hinv).2 h)
        exact ih (p + 1) a (by omega) (by omega) (sieveInv_skip hnp hinv)
    · simp only [sieveLoop]
      rw [if_neg hpl]
      exact sieveInv_exit (not_le.1 hpl) hinv

/-- The invariant holds at `p = 2` for the freshly initialized array. -/
lemma sieveInv_start (limit : Nat) : SieveInv limit 2 (initLoop limit (mallocArray limit)).1 := by
  have hlen : ((initLoop limit (mallocArray limit)).1).length = limit + 1 := by
    rw [initLoop, markLoop_length, mallocArray, List.length_replicate]
  refine ⟨hlen, fun j hj h2 => ?_, fun j hj => ?_⟩
  · constructor
    · rintro ⟨q, hq, hprime, _, _⟩
      exact absurd hprime.two_le (by omega)
    · intro _
      refine markLoop_getD_mem limit 1 (some true) (le_refl 1) (limit + 1) 2
        (mallocArray limit) j (by omega) ⟨j - 2, by omega⟩ hj ?_
      rw [mallocArray, List.length_replicate]
      omega
  · rw [initLoop, markLoop_getD_not limit 1 (some true) (limit + 1) 2 (mallocArray limit) j
      (by rintro ⟨⟨k, rfl⟩, _⟩; omega)]
    rw [mallocArray, List.getD_eq_getElem?_getD, List.getElem?_replicate]
    split <;> rfl

/-- The final marking array satisfies the prime characterization, for every
bound (including `limit < 2`, where the sieve loop body never runs). -/
lemma compute_primes_array_final (limit : Nat) :
    SieveFinal limit (compute_primes_array limit) :=
  sieveLoop_final limit (limit + 1) 2 (initLoop limit (mallocArray limit)).1
    (le_refl 2) (by omega) (sieveInv_start limit)

/-- Membership in the reported result set is exactly primality within the bound. -/
lemma mem_primesOf (limit i : Nat) : i ∈ primesOf limit ↔ Nat.Prime i ∧ i ≤ limit := by
  obtain ⟨hlen, hmid, hlow⟩ := compute_primes_array_final limit
  rw [primesOf, List.mem_filter, List.mem_range]
  constructor
  · rintro ⟨hr, hb⟩
    rw [beq_iff_eq] at hb
    by_cases h2 : 2 ≤ i
    · have hj : i ≤ limit := by omega
      refine ⟨?_, hj⟩
      by_contra hnp
      rw [(hmid i hj h2).2 hnp] at hb
      exact Bool.noConfusion (Option.some.inj hb)
    · rw [hlow i (by omega)] at hb
      exact Option.noConfusion hb
  · rintro ⟨hp, hle⟩
    refine ⟨by omega, ?_⟩
    rw [beq_iff_eq]
    exact (hmid i hle hp.two_le).1 hp

/-- The outer loop reads exactly the cells `2, 3, ...` up to the last `p` with
`p * p ≤ limit`, that is, up to `Nat.sqrt limit`. -/
lemma sieveLoop_reads (limit : Nat) :
    ∀ fuel p a, 2 ≤ p → limit + 2 ≤ fuel + p →
      (sieveLoop limit fuel p a).reads = List.range' p (Nat.sqrt limit + 1 - p) := by
  intro fuel
  induction fuel with
  | zero =>
    intro p a hp hfuel
    have hs : Nat.sqrt limit ≤ limit := Nat.sqrt_le_self limit
    have : Nat.sqrt limit + 1 - p = 0 := by omega
    rw [this]
    rfl
  | succ f ih =>
    intro p a hp hfuel
    by_cases hpl : p * p ≤ limit
    · have hple : p ≤ Nat.sqrt limit := Nat.le_sqrt.2 hpl
      have hcount : Nat.sqrt limit + 1 - p = (Nat.sqrt limit + 1 - (p + 1)) + 1 := by omega
      simp only [sieveLoop]
      rw [if_pos hpl, hcount, List.range'_succ]
      by_cases hlive : a.getD p none = some true
      · rw [if_pos hlive]
        show p :: (sieveLoop limit f (p + 1) (elimPass limit p a).1).reads = _
        rw [ih (p + 1) (elimPass limit p a).1 (by omega) (by omega)]
      · rw [if_neg hlive]
        show p :: (sieveLoop limit f (p + 1) a).reads = _
        rw [ih (p + 1) a (by omega) (by omega)]
    · have hlt : Nat.sqrt limit < p := Nat.sqrt_lt.2 (not_le.1 hpl)
      have : Nat.sqrt limit + 1 - p = 0 := by omega
      simp only [sieveLoop]
      rw [if_neg hpl, this]
      rfl

/-- Every write the sieve loop nest performs lands in `[2, limit]`. -/
lemma sieveLoop_writes_bound (limit : Nat) :
    ∀ fuel p a j, 2 ≤ p → j ∈ (sieveLoop limit fuel p a).writes → 2 ≤ j ∧ j ≤ limit := by
  intro fuel
  induction fuel with
  | zero => intro p a j _ hj; exact absurd hj (List.not_mem_nil j)
  | succ f ih =>
    intro p a j hp hj
    simp only [sieveLoop] at hj
    by_cases hpl : p * p ≤ limit
    · rw [if_pos hpl] at hj
      by_cases hlive : a.getD p none = some true
      · rw [if_pos hlive] at hj
        rcases List.mem_append.1 hj with hj | hj
        · obtain ⟨⟨k, rfl⟩, hle⟩ := markLoop_writes_sub limit p (some false) _ _ _ _ hj
          have h4 : 4 ≤ p * p := by nlinarith
          exact ⟨le_trans (by omega) (Nat.le_add_right (p * p) (p * k)), hle⟩
        · exact ih (p + 1) (elimPass limit p a).1 j (by omega) hj
      · rw [if_neg hlive] at hj
        exact ih (p + 1) a j (by omega) hj
    · rw [if_neg hpl] at hj
      exact absurd hj (List.not_mem_nil j)

/-- Every write of the initialization loop lands in `[2, limit]`. -/
lemma initLoop_writes_bound (limit j : Nat) (hj : j ∈ (initLoop limit (mallocArray limit)).2) :
    2 ≤ j ∧ j ≤ limit := by
  obtain ⟨⟨k, rfl⟩, hle⟩ := markLoop_writes_sub limit 1 (some true) _ _ _ _ hj
  exact ⟨Nat.le_add_right 2 (1 * k), hle⟩

/-! ## Overflow freedom of the checked `int` semantics for safe bounds

For `0 ≤ limit ≤ 2147395599` every intermediate `int` value stays in range:
the largest `p` whose square the outer loop ever evaluates is at most `46340`
(since `46340 * 46340 = 2147395600 > limit` stops the loop no later than there),
so `p * p ≤ 2147395600 ≤ INT_MAX` and every inner index stays below
`limit + p ≤ 2147395599 + 46340 < INT_MAX`. -/

lemma chk_ok {r : Int} (h1 : INT_MIN ≤ r) (h2 : r ≤ INT_MAX) : chk r = Except.ok r := by
  rw [chk, if_pos ⟨h1, h2⟩]

lemma except_bind_ok {α β : Type} (x : α) (f : α → Except String β) :
    (Except.ok x : Except String α).bind f = f x := rfl

lemma markLoopChk_ok (limit step : Int) (v : Cell) (hstep : 1 ≤ step)
    (hmax : limit + step ≤ INT_MAX) :
    ∀ (fuel : Nat) (i : Int) a, 1 ≤ fuel → 0 ≤ i → limit + 2 ≤ i + fuel →
      ∃ b, markLoopChk limit step v i fuel a = Except.ok b := by
  intro fuel
  induction fuel with
  | zero => intro i a h1 _ _; exact absurd h1 (by norm_num)
  | succ f ih =>
    intro i a _ hi hfuel
    simp only [markLoopChk]
    by_cases hle : i ≤ limit
    · rw [if_pos hle, chk_ok (by rw [INT_MIN]; omega) (by omega), except_bind_ok]
      have hf : 1 ≤ f := by
        push_cast at hfuel
        omega
      exact ih (i + step) (a.set i.toNat v) hf (by omega) (by push_cast at hfuel ⊢; omega)
    · rw [if_neg hle]
      exact ⟨a, rfl⟩

lemma sieveLoopChk_ok (limit : Int) (h0 : 0 ≤ limit) (h1 : limit ≤ 2147395599) :
    ∀ (fuel : Nat) (p : Int) a, 1 ≤ fuel → 2 ≤ p → limit + 2 ≤ p + fuel →
      (p = 2 ∨ (p - 1) * (p - 1) ≤ limit) →
      ∃ b, sieveLoopChk limit p fuel a = Except.ok b := by
  intro fuel
  induction fuel with
  | zero => intro p a hf _ _ _; exact absurd hf (by norm_num)
  | succ f ih =>
    intro p a _ hp hfuel hinv
    have hpbound : p ≤ 46340 := by
      rcases hinv with rfl | hsq
      · norm_num
      · by_contra hgt
        have h46 : (46340 : Int) ≤ p - 1 := by omega
        have hmul : (46340 : Int) * 46340 ≤ (p - 1) * (p - 1) :=
          mul_le_mul h46 h46 (by norm_num) (by omega)
        linarith
    have hppmax : p * p ≤ INT_MAX := by
      have hmul : p * p ≤ (46340 : Int) * 46340 :=
        mul_le_mul hpbound hpbound (by omega) (by norm_num)
      rw [INT_MAX]
      linarith
    have hppnn : (0 : Int) ≤ p * p := mul_nonneg (by omega) (by omega)
    have hpp_ok : chk (p * p) = Except.ok (p * p) := chk_ok (by rw [INT_MIN]; omega) hppmax
    have hself : p ≤ p * p := by nlinarith
    simp only [sieveLoopChk, hpp_ok, except_bind_ok]
    by_cases hpl : p * p ≤ limit
    · rw [if_pos hpl]
      have hple : p ≤ limit := le_trans hself hpl
      have hf : 1 ≤ f := by
        push_cast at hfuel
        omega
      have hp1_ok : chk (p + 1) = Except.ok (p + 1) :=
        chk_ok (by rw [INT_MIN]; omega) (by rw [INT_MAX] at hppmax ⊢; omega)
      have hrec : ∀ b, ∃ c, sieveLoopChk limit (p + 1) f b = Except.ok c := fun b =>
        ih (p + 1) b hf (by omega) (by push_cast at hfuel ⊢; omega)
          (Or.inr (by simpa using hpl))
      by_cases hlive : a.getD p.toNat none = some true
      · rw [if_pos hlive]
        obtain ⟨b, hb⟩ := markLoopChk_ok limit p (some false) (by omega)
          (by rw [INT_MAX]; omega) (limit.toNat + 1) (p * p) a (by omega) hppnn
          (by push_cast; omega)
        simp only [hb, except_bind_ok, hp1_ok]
        exact hrec b
      · rw [if_neg hlive]
        simp only [except_bind_ok, hp1_ok]
        exact hrec a
    · rw [if_neg hpl]
      exact ⟨a, rfl⟩

/-- For every bound in `[0, 2147395599]`, the checked execution completes with
no fuel exhaustion and no `int` overflow. -/
lemma compute_primes_chk_ok (limit : Int) (h0 : 0 ≤ limit) (h1 : limit ≤ 2147395599) :
    ∃ b, compute_primes_chk limit = Except.ok b := by
  rw [compute_primes_chk, chk_ok (by rw [INT_MIN]; omega) (by rw [INT_MAX]; omega),
    except_bind_ok]
  obtain ⟨a2, ha2⟩ := markLoopChk_ok limit 1 (some true) (le_refl 1)
    (by rw [INT_MAX]; omega) (limit.toNat + 1) 2
    (List.replicate (limit + 1).toNat (none : Cell)) (by omega) (by norm_num)
    (by push_cast; omega)
  rw [ha2, except_bind_ok]
  exact sieveLoopChk_ok limit h0 h1 (limit.toNat + 1) 2 a2 (by omega) (by norm_num)
    (by push_cast; omega) (Or.inl rfl)

/-! ## Claim theorems -/

/-- C1: For every N ≥ 2 (within the supported integer range, here idealized
arithmetic), after the elimination pass of computePrimes(N) terminates, index
`i` with `2 ≤ i ≤ N` is marked candidate iff `i` is prime, and the reported
result set is exactly the set of primes `≤ N`; the boundary cases
N = 2 → {2}, N = 3 → {2,3}, N = 10 → {2,3,5,7} are concrete instances. -/
theorem compute_primes_result_correct (limit : Nat) (hN : 2 ≤ limit) :
    (∀ i, 2 ≤ i → i ≤ limit →
      ((compute_primes_array limit).getD i none = some true ↔ Nat.Prime i))
    ∧ (∀ i, i ∈ primesOf limit ↔ (Nat.Prime i ∧ i ≤ limit))
    ∧ primesOf 2 = [2] ∧ primesOf 3 = [2, 3] ∧ primesOf 10 = [2, 3, 5, 7] := by
  obtain ⟨hlen, hmid, hlow⟩ := compute_primes_array_final limit
  refine ⟨fun i h2 hle => ⟨fun ht => ?_, fun hp => (hmid i hle h2).1 hp⟩,
    fun i => mem_primesOf limit i, by decide, by decide, by decide⟩
  by_contra hnp
  rw [(hmid i hle h2).2 hnp] at ht
  exact Bool.noConfusion (Option.some.inj ht)

theorem compute_primes_result_correct_witness :
    2 ≤ 10 ∧ ((compute_primes_array 10).getD 7 none = some true ↔ Nat.Prime 7)
      ∧ primesOf 10 = [2, 3, 5, 7] :=
  ⟨by decide, (compute_primes_result_correct 10 (by decide)).1 7 (by decide) (by decide),
    (compute_primes_result_correct 10 (by decide)).2.2.2.2⟩

/-- C2 counterexample: at N = 10, the value the caller receives from a call
whose allocation failed is identical to the value received from a successful
call — the function returns `void` on every path — so the allocation failure is
not signaled to the caller; it is silently ignored. -/
theorem compute_primes_alloc_failure_not_signaled :
    (compute_primes 10 false []).1 = (compute_primes 10 true []).1
    ∧ compute_primes_ret 10 false = compute_primes_ret 10 true :=
  ⟨rfl, rfl⟩

/-- C2 amended: if allocation of the marking array fails, computePrimes
returns immediately: it produces no result, performs no further computation,
never reads or writes the unallocated structure, and prints nothing; however
the failure is not signaled to the caller — the `void` return value is
indistinguishable from that of a successful call. -/
theorem compute_primes_alloc_failure_behavior (limit : Nat) (stdout : List String) :
    (compute_primes limit false stdout).2.2 = ⟨[], [], []⟩
    ∧ (compute_primes limit false stdout).2.1 = stdout
    ∧ (compute_primes limit false stdout).1 = (compute_primes limit true stdout).1 :=
  ⟨rfl, rfl, rfl⟩

/-- C3: for N < 2 (N = 0 or N = 1) computePrimes succeeds and its result is
empty; no index is ever marked or eliminated — the access logs are empty,
because both the initialization loop and the outer sieve loop (p starting at 2
with condition p*p ≤ N) run zero iterations, so every cell stays as allocated. -/
theorem compute_primes_small_bound_empty (limit : Nat) (h : limit < 2) :
    primesOf limit = []
    ∧ (compute_primes limit true []).2.2.writes = []
    ∧ (compute_primes limit true []).2.2.reads = []
    ∧ (compute_primes limit true []).2.2.marks = List.replicate (limit + 1) none := by
  interval_cases limit
  · exact ⟨by decide, by decide, by decide, by decide⟩
  · exact ⟨by decide, by decide, by decide, by decide⟩

theorem compute_primes_small_bound_empty_witness :
    (1 : Nat) < 2 ∧ primesOf 1 = [] ∧ (compute_primes 1 true []).2.2.writes = [] :=
  ⟨by decide, (compute_primes_small_bound_empty 1 (by decide)).1,
    (compute_primes_small_bound_empty 1 (by decide)).2.1⟩

/-- C4 counterexample: at N = 2, after the initialization step, cells 0 and 1
do not hold the eliminated state `some false`; they are still the indeterminate
`none` from `malloc`, and the initialization loop (which starts at index 2)
never writes them. -/
theorem initLoop_zero_one_not_eliminated :
    (initLoop 2 (mallocArray 2)).1.getD 0 none = none
    ∧ (initLoop 2 (mallocArray 2)).1.getD 1 none = none
    ∧ ¬ (initLoop 2 (mallocArray 2)).1.getD 0 none = some false
    ∧ ¬ (initLoop 2 (mallocArray 2)).1.getD 1 none = some false
    ∧ 0 ∉ (initLoop 2 (mallocArray 2)).2 ∧ 1 ∉ (initLoop 2 (mallocArray 2)).2 := by
  decide

/-- C4 amended: after the initialization step of computePrimes(N), every index
`i` with `2 ≤ i ≤ N` holds the candidate state; indices 0 and 1 are never
written by the initialization loop and keep their indeterminate (uninitialized)
contents — they do not hold the candidate state, but neither are they set to
the eliminated state. -/
theorem initLoop_marks (limit : Nat) :
    (∀ j, 2 ≤ j → j ≤ limit → (initLoop limit (mallocArray limit)).1.getD j none = some true)
    ∧ (∀ j, j < 2 → (initLoop limit (mallocArray limit)).1.getD j none = none
        ∧ j ∉ (initLoop limit (mallocArray limit)).2) := by
  obtain ⟨hlen, hmid, hlow⟩ := sieveInv_start limit
  refine ⟨fun j h2 hle => (hmid j hle h2).2 ?_, fun j hj => ⟨hlow j hj, fun hmem => ?_⟩⟩
  · rintro ⟨q, hq, hprime, _, _⟩
    exact absurd hprime.two_le (by omega)
  · obtain ⟨⟨k, rfl⟩, _⟩ := markLoop_writes_sub limit 1 (some true) _ _ _ _ hmem
    omega

theorem initLoop_marks_witness :
    (2 ≤ 2 ∧ 2 ≤ 10 ∧ (initLoop 10 (mallocArray 10)).1.getD 2 none = some true)
    ∧ (0 < 2 ∧ (initLoop 10 (mallocArray 10)).1.getD 0 none = none) :=
  ⟨⟨by decide, by decide, (initLoop_marks 10).1 2 (by decide) (by decide)⟩,
    by decide, ((initLoop_marks 10).2 0 (by decide)).1⟩

/-- C5: the outer loop examines every integer p from 2 while p*p ≤ N — its
read log is exactly the interval [2, √N] — advancing p by 1 on every iteration
regardless of p's own state (one unfolding logs the read of p and recurses at
p+1 both when p is live and when it is not, running the inner pass only in the
live case); and the inner pass for p eliminates exactly the indices
p*p, p*p+p, p*p+2p, ... up to N inclusive (starting at p², not 2p): its write
log holds exactly the multiples of p in [p², N] and it rewrites exactly those
cells to the eliminated state. -/
theorem sieve_elimination_structure (limit p fuel : Nat) (a : List Cell)
    (hp : 2 ≤ p) (hlen : a.length = limit + 1) :
    ((compute_primes_run limit).reads = List.range' 2 (Nat.sqrt limit - 1))
    ∧ (p * p ≤ limit → a.getD p none = some true →
        sieveLoop limit (fuel + 1) p a =
          ⟨(sieveLoop limit fuel (p + 1) (elimPass limit p a).1).marks,
            p :: (sieveLoop limit fuel (p + 1) (elimPass limit p a).1).reads,
            (elimPass limit p a).2
              ++ (sieveLoop limit fuel (p + 1) (elimPass limit p a).1).writes⟩)
    ∧ (p * p ≤ limit → ¬ a.getD p none = some true →
        sieveLoop limit (fuel + 1) p a =
          ⟨(sieveLoop limit fuel (p + 1) a).marks,
            p :: (sieveLoop limit fuel (p + 1) a).reads,
            (sieveLoop limit fuel (p + 1) a).writes⟩)
    ∧ (limit < p * p → sieveLoop limit (fuel + 1) p a = ⟨a, [], []⟩)
    ∧ (∀ j, j ∈ (elimPass limit p a).2 ↔ (p * p ≤ j ∧ j ≤ limit ∧ p ∣ j))
    ∧ (∀ j, j ≤ limit →
        (elimPass limit p a).1.getD j none =
          if p * p ≤ j ∧ p ∣ j then some false else a.getD j none) := by
  refine ⟨?_, fun hpl hlive => ?_, fun hpl hlive => ?_, fun hpl => ?_, fun j => ?_, fun j hj => ?_⟩
  · show (sieveLoop limit (limit + 1) 2 (initLoop limit (mallocArray limit)).1).reads = _
    rw [sieveLoop_reads limit (limit + 1) 2 _ (le_refl 2) (by omega)]
    congr 1
  · simp only [sieveLoop]
    rw [if_pos hpl, if_pos hlive]
  · simp only [sieveLoop]
    rw [if_pos hpl, if_neg hlive]
  · simp only [sieveLoop]
    rw [if_neg (not_le.2 hpl)]
  · constructor
    · intro hmem
      obtain ⟨hin, hle⟩ := markLoop_writes_sub limit p (some false) _ _ _ _ hmem
      obtain ⟨hpp, hdvd⟩ := (elim_index_set (by omega)).1 hin
      exact ⟨hpp, hle, hdvd⟩
    · rintro ⟨hpp, hle, hdvd⟩
      exact markLoop_mem_writes limit p (some false) (by omega) (limit + 1) (p * p) a j
        (Nat.le_add_right _ _) ((elim_index_set (by omega)).2 ⟨hpp, hdvd⟩) hle
  · by_cases hin : p * p ≤ j ∧ p ∣ j
    · rw [if_pos hin]
      exact markLoop_getD_mem limit p (some false) (by omega) (limit + 1) (p * p) a j
        (Nat.le_add_right _ _) ((elim_index_set (by omega)).2 hin) hj (by omega)
    · rw [if_neg hin]
      exact markLoop_getD_not limit p (some false) (limit + 1) (p * p) a j
        (fun h => hin ((elim_index_set (by omega)).1 h.1))

theorem sieve_elimination_structure_witness :
    (2 ≤ 2 ∧ (initLoop 10 (mallocArray 10)).1.length = 10 + 1)
    ∧ (compute_primes_run 10).reads = List.range' 2 (Nat.sqrt 10 - 1)
    ∧ (4 ∈ (elimPass 10 2 (initLoop 10 (mallocArray 10)).1).2 ↔ (4 ≤ 4 ∧ 4 ≤ 10 ∧ 2 ∣ 4)) :=
  ⟨⟨by decide, by decide⟩,
    (sieve_elimination_structure 10 2 5 (initLoop 10 (mallocArray 10)).1
      (by decide) (by decide)).1,
    (sieve_elimination_structure 10 2 5 (initLoop 10 (mallocArray 10)).1
      (by decide) (by decide)).2.2.2.2.1 4⟩

/-- C6 counterexample: at limit = INT_MAX = 2147483647 — a bound inside the
`int` range the function accepts — the very first arithmetic step, the
allocation size expression `limit + 1`, already leaves the `int` range: the
code computes on such bounds (undefined behavior in C) instead of rejecting or
signaling them, so the arithmetic is not overflow-free over the accepted range
and no overflow-rejection exists. -/
theorem compute_primes_chk_overflow_at_int_max :
    compute_primes_chk 2147483647 = Except.error "signed integer overflow" := rfl

/-- C6 amended: no step of computePrimes other than allocation can fail for
bounds `0 ≤ limit ≤ 2147395599 = 46340² − 1`: in the checked 32-bit semantics
every intermediate value of `limit+1`, `i+1`, `p*p`, `i+p`, `p+1` stays in the
`int` range and the loops terminate normally.  Larger `int` bounds are not
rejected or signaled: the code computes the overflowing `p*p` (or, at
`INT_MAX`, the overflowing `limit + 1`). -/
theorem compute_primes_no_overflow_within_safe_range (limit : Int)
    (h0 : 0 ≤ limit) (h1 : limit ≤ 2147395599) :
    (compute_primes_chk limit).isOk = true := by
  obtain ⟨b, hb⟩ := compute_primes_chk_ok limit h0 h1
  rw [hb]
  rfl

theorem compute_primes_no_overflow_within_safe_range_witness :
    (0 : Int) ≤ 10 ∧ (10 : Int) ≤ 2147395599 ∧ (compute_primes_chk 10).isOk = true :=
  ⟨by decide, by decide,
    compute_primes_no_overflow_within_safe_range 10 (by decide) (by decide)⟩

/-- C7: two successive calls of compute_primes with the same bound yield
identical results: the second call, run in the world state (output stream) the
first call left behind, produces the same trace — same final marking array,
same access logs — and the same return value; no state written by one call
influences the next. -/
theorem compute_primes_idempotent (limit : Nat) (allocOk : Bool) (stdout : List String) :
    (compute_primes limit allocOk ((compute_primes limit allocOk stdout).2.1)).2.2
        = (compute_primes limit allocOk stdout).2.2
    ∧ (compute_primes limit allocOk ((compute_primes limit allocOk stdout).2.1)).1
        = (compute_primes limit allocOk stdout).1 := by
  cases allocOk <;> exact ⟨rfl, rfl⟩

/-- C8: for every pair of bounds N ≤ M, the set of indices reported prime by
computePrimes(N) is contained in the set reported prime by computePrimes(M). -/
theorem primesOf_monotone (N M i : Nat) (h : N ≤ M) (hi : i ∈ primesOf N) :
    i ∈ primesOf M := by
  obtain ⟨hp, hle⟩ := (mem_primesOf N i).1 hi
  exact (mem_primesOf M i).2 ⟨hp, le_trans hle h⟩

theorem primesOf_monotone_witness :
    (10 : Nat) ≤ 30 ∧ 7 ∈ primesOf 10 ∧ 7 ∈ primesOf 30 :=
  ⟨by decide, by decide, primesOf_monotone 10 30 7 (by decide) (by decide)⟩

/-- C9 counterexample: the caller-visible outcome of a successful call — the
`void` return value together with the printed output — at N = 10 is identical
to that at N = 0, although the two bounds have different prime sets; hence the
primality mapping is not returned to the caller in memory (the function frees
the array and returns nothing). -/
theorem compute_primes_return_carries_no_result :
    (compute_primes 10 true []).1 = (compute_primes 0 true []).1
    ∧ (compute_primes 10 true []).2.1 = (compute_primes 0 true []).2.1
    ∧ primesOf 10 ≠ primesOf 0 :=
  ⟨rfl, rfl, by decide⟩

/-- C9 amended: on success, compute_primes computes the primality mapping
internally, frees it, and returns nothing to the caller (`void`); after the
computation finishes it prints the completion marker "End Program", which is
the call's only observable output. -/
theorem compute_primes_success_output (limit : Nat) (stdout : List String) :
    (compute_primes limit true stdout).1 = ()
    ∧ (compute_primes limit true stdout).2.1 = stdout ++ ["End Program"]
    ∧ (compute_primes limit true stdout).2.2.marks = compute_primes_array limit :=
  ⟨rfl, rfl, rfl⟩

/-- C10: when allocation succeeds (the failure path touches nothing) every
index compute_primes reads from or writes to the marking array lies in
`[2, limit]` — in particular inside the allocated bounds `[0, limit]` — and
indices 0 and 1 are never read or written by any loop. -/
theorem compute_primes_accesses_in_bounds (limit j : Nat) :
    (j ∈ (compute_primes limit true []).2.2.reads → 2 ≤ j ∧ j ≤ limit)
    ∧ (j ∈ (compute_primes limit true []).2.2.writes → 2 ≤ j ∧ j ≤ limit) := by
  constructor
  · intro hr
    have h1 : (compute_primes limit true []).2.2.reads
        = (sieveLoop limit (limit + 1) 2 (initLoop limit (mallocArray limit)).1).reads := rfl
    rw [h1, sieveLoop_reads limit (limit + 1) 2 _ (le_refl 2) (by omega),
      List.mem_range'_1] at hr
    have hs := Nat.sqrt_le_self limit
    omega
  · intro hw
    have h1 : (compute_primes limit true []).2.2.writes
        = (initLoop limit (mallocArray limit)).2
          ++ (sieveLoop limit (limit + 1) 2 (initLoop limit (mallocArray limit)).1).writes := rfl
    rw [h1, List.mem_append] at hw
    rcases hw with hw | hw
    · exact initLoop_writes_bound limit j hw
    · exact sieveLoop_writes_bound limit (limit + 1) 2 _ j (le_refl 2) hw

theorem compute_primes_accesses_in_bounds_witness :
    9 ∈ (compute_primes 10 true []).2.2.writes ∧ (2 ≤ 9 ∧ 9 ≤ 10) :=
  ⟨by decide, (compute_primes_accesses_in_bounds 10 9).2 (by decide)⟩

end ComputePrimes
